import Mathlib

/-!
Verification of the recurrence engine of the `syracuse` repository
(`src/core/Sequence.hpp`, `src/core/Sequence.cpp`, namespace `sequence`).

The embedding models the current revision of the code:
* `Sequence::at(n, uz)` evaluates the term of rank `n` using the terms
  vector `uz` that is passed to it (the inline overload `at(n)` passes the
  bound member `m_uz`); it throws `std::invalid_argument` when `uz` is empty.
* `Sequence::doUntil(value, uz)` walks the sequence until the term equals
  `value`; its loop is modelled with explicit fuel because the C++ loop need
  not terminate.
* `Sequence::loadNUntil(n, value, step)` fills an `std::map` keyed by terms
  vectors; the map is modelled as an association list sorted by the
  lexicographic order of `std::vector<int64_t>`.

Machine integers (`int64_t`) are modelled as `Int`; overflow is declared
unspecified by the specification and no claim depends on it.
-/

namespace Syracuse

/-- The message of the `std::invalid_argument` thrown by `Sequence::at()`
(quotation marks around the class name dropped). -/
def seqAtErrorMsg : String :=
  "Sequence::at(): When you create a Sequence object without initial terms, you must specify them to call this method."

/-- The pure value computed by `Sequence::at(n, uz)` once the emptiness guard
has passed (`src/core/Sequence.cpp`, lines 86-96).  For `n < uz.length` the
result is `uz[n]`; otherwise the loop `for (i = 1; i <= uzSize; ++i)
vec.push_back(at(n - i, uz))` builds the window
`[at (n-1), at (n-2), ..., at (n-k)]` (newest term first) and applies the
recurrence relation `m_seq` to it. -/
def seqAt (rel : List Int → Int) (uz : List Int) (n : Nat) : Int :=
  if h : n < uz.length then uz.get ⟨n, h⟩
  else
    rel ((List.range uz.length).attach.map (fun i =>
      seqAt rel uz (n - (i.1 + 1))))
termination_by n
decreasing_by
  have hi := List.mem_range.mp i.2
  simp only [not_lt] at h
  omega

/-- Unfolding of `seqAt` in the base case `n < uz.length`. -/
theorem seqAt_of_lt (rel : List Int → Int) (uz : List Int) {n : Nat}
    (h : n < uz.length) : seqAt rel uz n = uz.get ⟨n, h⟩ := by
  rw [seqAt]
  simp [h]

/-- Unfolding of `seqAt` in the recursive case `uz.length ≤ n`: the relation
is applied to the window `[at (n-1), ..., at (n - uz.length)]`. -/
theorem seqAt_of_ge (rel : List Int → Int) (uz : List Int) {n : Nat}
    (h : uz.length ≤ n) :
    seqAt rel uz n =
      rel ((List.range uz.length).map (fun i => seqAt rel uz (n - (i + 1)))) := by
  rw [seqAt]
  rw [dif_neg (Nat.not_lt.mpr h)]
  congr 1
  rw [show (fun i : {x // x ∈ List.range uz.length} =>
        seqAt rel uz (n - (i.1 + 1))) =
      (fun i => seqAt rel uz (n - (i + 1))) ∘ Subtype.val from rfl]
  rw [← List.map_map, List.attach_map_subtype_val]

/-- Iterative evaluator: `seqPrev rel uz n` is the list
`[at (n-1), at (n-2), ..., at 0]` of the first `n` terms, newest first.  It is
a memoised re-statement of `seqAt`, introduced only so that concrete instances
can be evaluated by kernel reduction (`seqAt` itself is defined by
well-founded recursion and does not reduce); `seqPrev_eq` proves the
equivalence. -/
def seqPrev (rel : List Int → Int) (uz : List Int) : Nat → List Int
  | 0 => []
  | n + 1 =>
    let prev := seqPrev rel uz n
    (if h : n < uz.length then uz.get ⟨n, h⟩ else rel (prev.take uz.length))
      :: prev

/-- Iterative form of `seqAt`; see `seqAtI_eq`. -/
def seqAtI (rel : List Int → Int) (uz : List Int) (n : Nat) : Int :=
  (seqPrev rel uz (n + 1)).headI

/-- The reversed range enumerates `n - 1, n - 2, ...`: taking `k ≤ n` of it
gives `[n-1, n-2, ..., n-k]`. -/
theorem range_reverse_take (n k : Nat) (hk : k ≤ n) :
    ((List.range n).reverse).take k =
      (List.range k).map (fun i => n - (i + 1)) := by
  induction n generalizing k with
  | zero =>
    have : k = 0 := Nat.le_zero.mp hk
    subst this
    rfl
  | succ n ih =>
    rw [List.range_succ, List.reverse_append]
    cases k with
    | zero => rfl
    | succ j =>
      have hj : j ≤ n := Nat.succ_le_succ_iff.mp hk
      simp only [List.reverse_cons, List.reverse_nil, List.nil_append,
        List.singleton_append, List.take_succ_cons, ih j hj,
        List.range_succ_eq_map, List.map_cons, List.map_map]
      congr 1
      apply List.map_congr_left
      intro a _
      simp only [Function.comp_apply, Nat.succ_eq_add_one]
      omega

/-- `seqPrev` really lists the values of `seqAt`, newest first. -/
theorem seqPrev_eq (rel : List Int → Int) (uz : List Int) :
    ∀ n, seqPrev rel uz n = ((List.range n).reverse).map (seqAt rel uz) := by
  intro n
  induction n with
  | zero => rfl
  | succ n ih =>
    rw [seqPrev]
    rw [List.range_succ, List.reverse_append, List.reverse_cons,
      List.reverse_nil, List.nil_append, List.singleton_append, List.map_cons]
    rw [ih]
    congr 1
    by_cases h : n < uz.length
    · rw [dif_pos h, seqAt_of_lt rel uz h]
    · rw [dif_neg h]
      have hge : uz.length ≤ n := Nat.not_lt.mp h
      rw [seqAt_of_ge rel uz hge]
      congr 1
      rw [← List.map_take, range_reverse_take n uz.length hge, List.map_map]
      rfl

/-- Bridge between the faithful recursive evaluator and the iterative one. -/
theorem seqAtI_eq (rel : List Int → Int) (uz : List Int) (n : Nat) :
    seqAtI rel uz n = seqAt rel uz n := by
  rw [seqAtI, seqPrev_eq]
  rw [List.range_succ, List.reverse_append, List.reverse_cons,
    List.reverse_nil, List.nil_append, List.singleton_append, List.map_cons,
    List.headI_cons]

/-- Function-level form of `seqAtI_eq`, used to rewrite under binders. -/
theorem seqAt_fun_eq (rel : List Int → Int) (uz : List Int) :
    seqAt rel uz = seqAtI rel uz :=
  funext fun n => (seqAtI_eq rel uz n).symm

/-- `Sequence::at(n, uz)` (`src/core/Sequence.cpp`, lines 74-97), including
the guard of lines 79-84: when `uz` is empty the call throws
`std::invalid_argument`, otherwise it returns `seqAt`.  Note that this
overload consults only the vector `uz` it receives; the bound member `m_uz`
plays no role here. -/
def atE (rel : List Int → Int) (uz : List Int) (n : Nat) : Except String Int :=
  if uz.length = 0 then .error seqAtErrorMsg
  else .ok (seqAt rel uz n)

/-- `Sequence::Result` (header, lines 199-211): cycle length and maximum
term. -/
structure Result where
  cycleLen : Nat
  maxTerm : Int
deriving DecidableEq, Repr

/-- The loop of `Sequence::doUntil` (`src/core/Sequence.cpp`, lines 102-110),
with the term evaluator abstracted as `f` (instantiated with
`seqAt rel uz` by `doUntilE`) and explicit fuel, since the C++ loop need not
terminate.  `uzLen` is the length of the vector `uz` the loop evaluates
against: when the loop body runs with `uzLen = 0` the call `at(++cycle, uz)`
throws, which the model returns as `.error`.  Running out of fuel yields
`.ok none`. -/
def doUntilLoopE (f : Nat → Int) (uzLen : Nat) (value : Int) :
    Nat → Nat → Int → Int → Except String (Option Result)
  | 0, _, _, _ => .ok none
  | fuel + 1, cycle, term, maxTerm =>
    if term = value then .ok (some ⟨cycle, maxTerm⟩)
    else if uzLen = 0 then .error seqAtErrorMsg
    else
      doUntilLoopE f uzLen value fuel (cycle + 1) (f (cycle + 1))
        (if term > maxTerm then term else maxTerm)

/-- `Sequence::doUntil(value, uz)` (`src/core/Sequence.cpp`, lines 99-111).
The seed `maxTerm = at(0)` calls the overload `at(0)` which evaluates against
the BOUND terms `muz` (it throws when `muz` is empty); the loop then steps
with `at(++cycle, uz)`, i.e. against `uz`. -/
def doUntilE (rel : List Int → Int) (muz uz : List Int) (value : Int)
    (fuel : Nat) : Except String (Option Result) :=
  if muz.length = 0 then .error seqAtErrorMsg
  else
    doUntilLoopE (seqAt rel uz) uz.length value fuel 0 (seqAt rel muz 0)
      (seqAt rel muz 0)

/-- The `sequence::Sequence` class: a bound terms vector `m_uz` and a
recurrence relation `m_seq`. -/
structure Sequence where
  m_uz : List Int
  m_seq : List Int → Int

/-- `Sequence::withUz(uz)` (header): rebinds the initial terms in place and
returns the instance.  The in-place mutation is modelled by returning the
updated state, which stands for the same instance. -/
def Sequence.withUz (s : Sequence) (uz : List Int) : Sequence :=
  { s with m_uz := uz }

/-- The inline overload `Sequence::at(n)` which forwards to
`at(n, m_uz)`.  (`at` is a reserved word in Lean, hence the name.) -/
def Sequence.atIdx (s : Sequence) (n : Nat) : Except String Int :=
  atE s.m_seq s.m_uz n

/-- `Sequence::at(n, uz)` as a method. -/
def Sequence.atWith (s : Sequence) (n : Nat) (uz : List Int) :
    Except String Int :=
  atE s.m_seq uz n

/-- The inline overload `Sequence::doUntil(value)` which forwards to
`doUntil(value, m_uz)`. -/
def Sequence.doUntil (s : Sequence) (value : Int) (fuel : Nat) :
    Except String (Option Result) :=
  doUntilE s.m_seq s.m_uz s.m_uz value fuel

/-- `Sequence::doUntil(value, uz)` as a method. -/
def Sequence.doUntilWith (s : Sequence) (value : Int) (uz : List Int)
    (fuel : Nat) : Except String (Option Result) :=
  doUntilE s.m_seq s.m_uz uz value fuel

/-- Strict lexicographic comparison of `std::vector<int64_t>`
(`std::lexicographical_compare`), the key order of the `std::map` used by
`loadNUntil`. -/
def vecLt : List Int → List Int → Bool
  | [], [] => false
  | [], _ :: _ => true
  | _ :: _, [] => false
  | a :: as, b :: bs => if a < b then true else if b < a then false else vecLt as bs

/-- The `Sequence::ResultMap` of `loadNUntil`, modelled as an association
list sorted in increasing `vecLt` order, each key carrying the outcome of its
`doUntil` invocation (the C++ call rethrows the first error in key order when
the futures are awaited). -/
abbrev ResultMap := List (List Int × Except String (Option Result))

/-- Insertion `map[uz] = ...` into the sorted association list modelling
`std::map<vec_t, ...>`: keeps keys in increasing `vecLt` order, overwriting
an equal key. -/
def mapInsert (k : List Int) (v : Except String (Option Result)) :
    ResultMap → ResultMap
  | [] => [(k, v)]
  | (kp, vp) :: rest =>
    if vecLt k kp then (k, v) :: (kp, vp) :: rest
    else if vecLt kp k then (kp, vp) :: mapInsert k v rest
    else (kp, v) :: rest

/-- The loop of `Sequence::loadNUntil` (`src/core/Sequence.cpp`,
lines 122-128): for `i = 0 .. n-1` it stores `doUntil(value, uz)` under the
key `uz` (note the `this` pointer: the bound terms `s.m_uz` keep seeding each
invocation) and then increments every component of `uz` by `step`. -/
def loadNLoop (s : Sequence) (value : Int) (step : Nat) (fuel : Nat) :
    Nat → List Int → ResultMap → ResultMap
  | 0, _, acc => acc
  | n + 1, uz, acc =>
    loadNLoop s value step fuel n (uz.map (fun x => x + (step : Int)))
      (mapInsert uz (doUntilE s.m_seq s.m_uz uz value fuel) acc)

/-- `Sequence::loadNUntil(n, value, step)` (`src/core/Sequence.cpp`,
lines 113-135): starts from `uz = m_uz` and runs the insertion loop; the
final map associates each generated key with the result of its (awaited)
`doUntil` invocation. -/
def Sequence.loadNUntil (s : Sequence) (n : Nat) (value : Int) (step : Nat)
    (fuel : Nat) : ResultMap :=
  loadNLoop s value step fuel n s.m_uz []

/-- The Collatz step used by the specification's concrete scenarios:
`f(x) = x / 2` if `x` is even, else `3 * x + 1` (order-1 relation, so the
window order does not matter). -/
def collatzRel : List Int → Int
  | [x] => if x % 2 = 0 then x / 2 else 3 * x + 1
  | _ => 0

/-- Order-1 relation `f(x) = x + 1`, used to exhibit the treatment of the
matched term by `doUntil`. -/
def succRel : List Int → Int
  | [x] => x + 1
  | _ => 0

/-- Order-2 non-commutative relation, used to exhibit the orientation of the
window passed to the recurrence relation. -/
def subRel : List Int → Int
  | [a, b] => a - b
  | _ => 0

/-- Evaluation form of `doUntilE`: replacing `seqAt` by the iterative
`seqAtI` lets concrete instances reduce in the kernel. -/
theorem doUntilE_eval (rel : List Int → Int) (muz uz : List Int)
    (value : Int) (fuel : Nat) :
    doUntilE rel muz uz value fuel =
      if muz.length = 0 then .error seqAtErrorMsg
      else
        doUntilLoopE (seqAtI rel uz) uz.length value fuel 0
          (seqAtI rel muz 0) (seqAtI rel muz 0) := by
  rw [doUntilE, seqAt_fun_eq, seqAtI_eq]

/-- The update `if (term > maxTerm) maxTerm = term` computes the maximum. -/
theorem update_eq_max (t m : Int) : (if t > m then t else m) = max m t := by
  rcases le_or_lt t m with h | h
  · rw [if_neg (not_lt.mpr h), max_eq_left h]
  · rw [if_pos h, max_eq_right h.le]

/-- The running maximum accumulated by the `doUntil` loop over the terms at
indices `c, c+1, ..., c+d-1`, started from `m`. -/
def runMax (f : Nat → Int) (m : Int) (c d : Nat) : Int :=
  ((List.range d).map (fun j => f (c + j))).foldl max m

theorem runMax_zero (f : Nat → Int) (m : Int) (c : Nat) :
    runMax f m c 0 = m := rfl

theorem runMax_succ (f : Nat → Int) (m : Int) (c d : Nat) :
    runMax f m c (d + 1) = runMax f (max m (f c)) (c + 1) d := by
  rw [runMax, runMax, List.range_succ_eq_map, List.map_cons, List.foldl_cons,
    List.map_map, add_zero]
  congr 1
  apply List.map_congr_left
  intro a _
  simp only [Function.comp_apply, Nat.succ_eq_add_one]
  congr 1
  omega

theorem foldl_max_init (l : List Int) (m : Int) : m ≤ l.foldl max m := by
  induction l generalizing m with
  | nil => exact le_refl m
  | cons a l ih => exact le_trans (le_max_left m a) (ih (max m a))

theorem foldl_max_le (l : List Int) (m a : Int) (ha : a ∈ l) :
    a ≤ l.foldl max m := by
  induction l generalizing m with
  | nil => cases ha
  | cons b l ih =>
    rcases List.mem_cons.mp ha with h | h
    · subst h
      exact le_trans (le_max_right m a) (foldl_max_init l (max m a))
    · exact ih (max m b) h

theorem foldl_max_cases (l : List Int) (m : Int) :
    l.foldl max m = m ∨ l.foldl max m ∈ l := by
  induction l generalizing m with
  | nil => exact Or.inl rfl
  | cons a l ih =>
    rw [List.foldl_cons]
    rcases ih (max m a) with h | h
    · rcases le_or_lt a m with hle | hlt
      · exact Or.inl (by rw [h, max_eq_left hle])
      · exact Or.inr (by rw [h, max_eq_right hlt.le]; exact List.mem_cons_self a l)
    · exact Or.inr (List.mem_cons_of_mem a h)

/-- Full run of the `doUntil` loop: if, starting from index `c` with the
current term `f c`, the trace first hits `value` after `d` further steps, and
the fuel covers those steps, the loop returns the index of the hit together
with the running maximum of `m` and the terms examined strictly before the
hit. -/
theorem doUntilLoopE_run (f : Nat → Int) (L : Nat) (value : Int)
    (hL : L ≠ 0) :
    ∀ (d c : Nat) (m : Int) (fuel : Nat), d < fuel →
      (∀ j, j < d → f (c + j) ≠ value) → f (c + d) = value →
      doUntilLoopE f L value fuel c (f c) m =
        .ok (some ⟨c + d, runMax f m c d⟩) := by
  intro d
  induction d with
  | zero =>
    intro c m fuel hfu _ hhit
    cases fuel with
    | zero => omega
    | succ fu =>
      rw [doUntilLoopE, if_pos (by simpa using hhit), runMax_zero, add_zero]
  | succ d ih =>
    intro c m fuel hfu hmiss hhit
    cases fuel with
    | zero => omega
    | succ fu =>
    have h0 : f c ≠ value := by simpa using hmiss 0 (Nat.succ_pos d)
    rw [doUntilLoopE, if_neg h0, if_neg hL, update_eq_max]
    rw [ih (c + 1) (max m (f c)) fu (Nat.succ_lt_succ_iff.mp hfu)
      (fun j hj => by
        have := hmiss (j + 1) (Nat.succ_lt_succ hj)
        simpa [Nat.add_assoc, Nat.add_comm 1 j] using this)
      (by
        have := hhit
        rwa [show c + (d + 1) = c + 1 + d by omega] at this)]
    rw [show c + 1 + d = c + (d + 1) by omega, runMax_succ]

/-- When the loop evaluates against a non-empty vector it never throws: it
either finds the target or runs out of fuel. -/
theorem doUntilLoopE_ok (f : Nat → Int) (L : Nat) (value : Int)
    (hL : L ≠ 0) :
    ∀ (fuel c : Nat) (t m : Int),
      ∃ r, doUntilLoopE f L value fuel c t m = .ok r := by
  intro fuel
  induction fuel with
  | zero => intro c t m; exact ⟨none, rfl⟩
  | succ fuel ih =>
    intro c t m
    by_cases h : t = value
    · exact ⟨some ⟨c, m⟩, by rw [doUntilLoopE, if_pos h]⟩
    · obtain ⟨r, hr⟩ := ih (c + 1) (f (c + 1))
        (if t > m then t else m)
      exact ⟨r, by rw [doUntilLoopE, if_neg h, if_neg hL]; exact hr⟩

/-- `runMax` started at index 0 folds over the plain trace. -/
theorem runMax_base (f : Nat → Int) (m : Int) (d : Nat) :
    runMax f m 0 d = ((List.range d).map f).foldl max m := by
  rw [runMax]
  congr 1
  apply List.map_congr_left
  intro a _
  rw [Nat.zero_add]

/-- The reversed range, fully taken. -/
theorem range_reverse (k : Nat) :
    (List.range k).reverse = (List.range k).map (fun i => k - (i + 1)) := by
  have h := range_reverse_take k k (le_refl k)
  rwa [List.take_of_length_le (by simp)] at h

/-- The Collatz trajectory started from the seed vector `[6]` reaches the
target value 1 (at index 8). -/
theorem collatz6_reaches_one : ∃ i, seqAt collatzRel [6] i = 1 :=
  ⟨8, by rw [← seqAtI_eq]; rfl⟩

/-- Index 8 is the first index at which the Collatz trajectory of `[6]` hits
the value 1. -/
theorem collatz6_find : Nat.find collatz6_reaches_one = 8 := by
  rw [Nat.find_eq_iff]
  constructor
  · rw [← seqAtI_eq]; rfl
  · intro j hj
    interval_cases j <;> (rw [← seqAtI_eq]; decide)

/-- C6: for every effective terms vector `uz` and every index `n` below its
length, `at(n, uz)` succeeds with `uz[n]`, and the recurrence relation is not
consulted (any relation gives the same outcome). -/
theorem claim_C6 (rel : List Int → Int) (uz : List Int) (n : Nat)
    (h : n < uz.length) :
    atE rel uz n = .ok (uz.get ⟨n, h⟩) ∧
      ∀ rel2 : List Int → Int, atE rel2 uz n = atE rel uz n := by
  have key : ∀ r : List Int → Int, atE r uz n = .ok (uz.get ⟨n, h⟩) := by
    intro r
    rw [atE, if_neg (by omega), seqAt_of_lt r uz h]
  exact ⟨key rel, fun rel2 => (key rel2).trans (key rel).symm⟩

/-- Witness for C6 at a concrete input: `at(1, [5, 7]) = 7`. -/
theorem claim_C6_witness : atE collatzRel [5, 7] 1 = .ok 7 :=
  (claim_C6 collatzRel [5, 7] 1 (by decide)).1

/-- C9: `withUz(uz)` rebinds the initial terms, leaves the relation
unchanged, and subsequent `at`/`doUntil` calls on the returned instance use
`uz` with the original relation.  The C++ in-place mutation plus returned
reference is modelled by the updated state standing for the instance. -/
theorem claim_C9 (s : Sequence) (uz : List Int) :
    (s.withUz uz).m_uz = uz ∧ (s.withUz uz).m_seq = s.m_seq ∧
      (∀ n, (s.withUz uz).atIdx n = atE s.m_seq uz n) ∧
      (∀ (value : Int) (fuel : Nat),
        (s.withUz uz).doUntil value fuel = doUntilE s.m_seq uz uz value fuel) :=
  ⟨rfl, rfl, fun _ => rfl, fun _ _ => rfl⟩

/-- C8: on the sequence with the Collatz relation and bound terms `[6]`,
`doUntil(1)` returns cycle length 8 and maximum term 16
(trajectory 6, 3, 10, 5, 16, 8, 4, 2, 1). -/
theorem claim_C8 :
    Sequence.doUntil ⟨[6], collatzRel⟩ 1 20 = .ok (some ⟨8, 16⟩) := by
  show doUntilE collatzRel [6] [6] 1 20 = _
  rw [doUntilE_eval]
  rfl

/-- C2 is contradicted by the code: with bound terms `[1]` and the Collatz
relation, `doUntil(1, [2])` seeds its first examined term from the BOUND
terms (`at(0) = 1`), matches the target immediately and returns
`{cycleLen 0, maxTerm 1}`, although `at(0, [2]) = 2`, so under the claim the
first examined term would be 2 and the result `{cycleLen 1, maxTerm 2}`. -/
theorem claim_C2_code_divergence :
    Sequence.doUntilWith ⟨[1], collatzRel⟩ 1 [2] 10 = .ok (some ⟨0, 1⟩) ∧
      atE collatzRel [2] 0 = .ok 2 := by
  constructor
  · show doUntilE collatzRel [1] [2] 1 10 = _
    rw [doUntilE_eval]
    rfl
  · have h2 : seqAt collatzRel [2] 0 = 2 := by rw [← seqAtI_eq]; rfl
    rw [atE, if_neg (by simp), h2]

/-- C3: when the target is reachable, `doUntil(target)` returns as cycle
length the smallest index at which the trace hits the target (the loop is
given enough fuel to reach that index). -/
theorem claim_C3 (s : Sequence) (value : Int)
    (h : ∃ i, seqAt s.m_seq s.m_uz i = value) (hk : s.m_uz ≠ [])
    (fuel : Nat) (hf : Nat.find h < fuel) :
    ∃ m, s.doUntil value fuel = .ok (some ⟨Nat.find h, m⟩) := by
  have hL : s.m_uz.length ≠ 0 := fun hzero => hk (List.length_eq_zero.mp hzero)
  refine ⟨runMax (seqAt s.m_seq s.m_uz) (seqAt s.m_seq s.m_uz 0) 0
    (Nat.find h), ?_⟩
  rw [Sequence.doUntil, doUntilE, if_neg hL]
  have hrun := doUntilLoopE_run (seqAt s.m_seq s.m_uz) s.m_uz.length value hL
    (Nat.find h) 0 (seqAt s.m_seq s.m_uz 0) fuel hf
    (fun j hj => by simpa using Nat.find_min h hj)
    (by simpa using Nat.find_spec h)
  simpa using hrun

/-- Witness for C3: on the Collatz sequence seeded `[6]` with target 1, the
cycle length is the first hitting index. -/
theorem claim_C3_witness :
    ∃ m, Sequence.doUntil ⟨[6], collatzRel⟩ 1 20 =
      .ok (some ⟨Nat.find collatz6_reaches_one, m⟩) := by
  have hf : Nat.find collatz6_reaches_one < 20 := by
    rw [collatz6_find]; decide
  exact claim_C3 ⟨[6], collatzRel⟩ 1 collatz6_reaches_one (by decide) 20 hf

/-- C4 as stated is contradicted by the code: with the relation
`f(x) = x + 1`, seed `[0]` and target 3, `doUntil` returns
`{cycleLen 3, maxTerm 2}` although the term at index `cycleLen` is 3: the
matched term is NOT folded into the running maximum, so `maxTerm` is neither
`≥` every term of `0..cycleLen` inclusive nor the maximum of that range. -/
theorem claim_C4_counterexample :
    Sequence.doUntil ⟨[0], succRel⟩ 3 10 = .ok (some ⟨3, 2⟩) ∧
      seqAt succRel [0] 3 = 3 := by
  constructor
  · show doUntilE succRel [0] [0] 3 10 = _
    rw [doUntilE_eval]
    rfl
  · rw [← seqAtI_eq]; rfl

/-- C4 amended: `maxTerm` is the maximum of the term at index 0 and the
terms at indices strictly below `cycleLen`; the matched term at index
`cycleLen` itself is excluded. -/
theorem claim_C4_amended (s : Sequence) (value : Int)
    (h : ∃ i, seqAt s.m_seq s.m_uz i = value) (hk : s.m_uz ≠ [])
    (fuel : Nat) (hf : Nat.find h < fuel) :
    ∃ r : Result, s.doUntil value fuel = .ok (some r) ∧
      r.cycleLen = Nat.find h ∧
      seqAt s.m_seq s.m_uz 0 ≤ r.maxTerm ∧
      (∀ j, j < r.cycleLen → seqAt s.m_seq s.m_uz j ≤ r.maxTerm) ∧
      (r.maxTerm = seqAt s.m_seq s.m_uz 0 ∨
        ∃ j, j < r.cycleLen ∧ r.maxTerm = seqAt s.m_seq s.m_uz j) := by
  have hL : s.m_uz.length ≠ 0 := fun hzero => hk (List.length_eq_zero.mp hzero)
  refine ⟨⟨Nat.find h, runMax (seqAt s.m_seq s.m_uz)
    (seqAt s.m_seq s.m_uz 0) 0 (Nat.find h)⟩, ?_, rfl, ?_, ?_, ?_⟩
  · rw [Sequence.doUntil, doUntilE, if_neg hL]
    have hrun := doUntilLoopE_run (seqAt s.m_seq s.m_uz) s.m_uz.length value
      hL (Nat.find h) 0 (seqAt s.m_seq s.m_uz 0) fuel hf
      (fun j hj => by simpa using Nat.find_min h hj)
      (by simpa using Nat.find_spec h)
    simpa using hrun
  · rw [runMax_base]
    exact foldl_max_init _ _
  · intro j hj
    rw [runMax_base]
    exact foldl_max_le _ _ _ (List.mem_map.mpr ⟨j, List.mem_range.mpr hj, rfl⟩)
  · rw [runMax_base]
    rcases foldl_max_cases ((List.range (Nat.find h)).map
      (seqAt s.m_seq s.m_uz)) (seqAt s.m_seq s.m_uz 0) with hc | hc
    · exact Or.inl hc
    · obtain ⟨j, hj, hje⟩ := List.mem_map.mp hc
      exact Or.inr ⟨j, List.mem_range.mp hj, hje.symm⟩

/-- Witness for the amended C4 on the Collatz sequence seeded `[6]`. -/
theorem claim_C4_witness :
    ∃ r : Result, Sequence.doUntil ⟨[6], collatzRel⟩ 1 20 = .ok (some r) ∧
      r.cycleLen = Nat.find collatz6_reaches_one ∧
      seqAt collatzRel [6] 0 ≤ r.maxTerm ∧
      (∀ j, j < r.cycleLen → seqAt collatzRel [6] j ≤ r.maxTerm) ∧
      (r.maxTerm = seqAt collatzRel [6] 0 ∨
        ∃ j, j < r.cycleLen ∧ r.maxTerm = seqAt collatzRel [6] j) := by
  have hf : Nat.find collatz6_reaches_one < 20 := by
    rw [collatz6_find]; decide
  exact claim_C4_amended ⟨[6], collatzRel⟩ 1 collatz6_reaches_one (by decide) 20 hf

/-- C5 as stated is contradicted by the code: for the order-2 relation
`f(a, b) = a - b` with terms `[0, 10]`, the code computes
`at(2) = f(at(1), at(0)) = 10 - 0 = 10`, whereas the claim's oldest-first
window `f(at(0), at(1)) = 0 - 10` gives `-10`. -/
theorem claim_C5_counterexample :
    seqAt subRel [0, 10] 2 = 10 ∧
      subRel [seqAt subRel [0, 10] 0, seqAt subRel [0, 10] 1] = -10 := by
  refine ⟨by rw [← seqAtI_eq]; rfl, ?_⟩
  rw [← seqAtI_eq, ← seqAtI_eq]
  rfl

/-- C5 amended: for `n ≥ k` the relation is applied to the REVERSE of the
oldest-first window, i.e. to `[at(n-1), at(n-2), ..., at(n-k)]` (newest term
first). -/
theorem claim_C5_amended (rel : List Int → Int) (uz : List Int) (n : Nat)
    (_hk : uz ≠ []) (hn : uz.length ≤ n) :
    seqAt rel uz n =
      rel (((List.range uz.length).map
        (fun j => seqAt rel uz (n - uz.length + j))).reverse) := by
  rw [seqAt_of_ge rel uz hn]
  congr 1
  rw [← List.map_reverse, range_reverse, List.map_map]
  apply List.map_congr_left
  intro a ha
  have hak := List.mem_range.mp ha
  simp only [Function.comp_apply]
  congr 1
  omega

/-- Witness for the amended C5 at the concrete input of the
counterexample. -/
theorem claim_C5_witness :
    seqAt subRel [0, 10] 2 =
      subRel (((List.range 2).map
        (fun j => seqAt subRel [0, 10] (2 - 2 + j))).reverse) := by
  have h := claim_C5_amended subRel [0, 10] 2 (by decide) (by decide)
  simpa using h

/-- Fuel-indexed clone of the recursion of `Sequence::at`: each recursive
call of the C++ function is mirrored by a call at one unit less fuel, so a
`some` answer at fuel `g` certifies that every recursion path from the root
has depth at most `g`. -/
def seqAtF (rel : List Int → Int) (uz : List Int) : Nat → Nat → Option Int
  | 0, _ => none
  | fuel + 1, n =>
    if h : n < uz.length then some (uz.get ⟨n, h⟩)
    else
      ((List.range uz.length).mapM
        (fun i => seqAtF rel uz fuel (n - (i + 1)))).map rel

theorem mapM_eq_some {α β : Type} (g : α → Option β) (gp : α → β) :
    ∀ l : List α, (∀ a ∈ l, g a = some (gp a)) →
      l.mapM g = some (l.map gp) := by
  intro l
  induction l with
  | nil => intro _; rfl
  | cons a l ih =>
    intro hall
    rw [List.mapM_cons, hall a (List.mem_cons_self a l),
      ih (fun b hb => hall b (List.mem_cons_of_mem a hb))]
    rfl

/-- C10: for a non-empty terms vector the recursion of `at` is well-founded:
every recursive call strictly decreases the index, so fuel `n + 1` (here any
fuel above `n`) suffices for the fuel-indexed clone to complete and agree
with the recursive definition. -/
theorem claim_C10 (rel : List Int → Int) (uz : List Int) (hk : uz ≠ [])
    (n fuel : Nat) (hfu : n < fuel) :
    seqAtF rel uz fuel n = some (seqAt rel uz n) := by
  induction n using Nat.strong_induction_on generalizing fuel with
  | _ n ih =>
    cases fuel with
    | zero => omega
    | succ fu =>
      by_cases h : n < uz.length
      · rw [seqAtF, dif_pos h, seqAt_of_lt rel uz h]
      · have hge : uz.length ≤ n := Nat.not_lt.mp h
        have hlen : uz.length ≠ 0 := fun hzero => hk (List.length_eq_zero.mp hzero)
        rw [seqAtF, dif_neg h]
        rw [mapM_eq_some _ (fun i => seqAt rel uz (n - (i + 1))) _
          (fun i hi => by
            have hik := List.mem_range.mp hi
            exact ih (n - (i + 1)) (by omega) fu (by omega))]
        rw [Option.map_some', seqAt_of_ge rel uz hge]

/-- Witness for C10: fuel 10 suffices at index 9 on the Collatz sequence. -/
theorem claim_C10_witness :
    seqAtF collatzRel [6] 10 9 = some (seqAt collatzRel [6] 9) :=
  claim_C10 collatzRel [6] (by decide) 9 10 (by decide)

/-- C7 as stated is contradicted by the code: the sequence below HAS bound
terms (`[6]`), yet the lookup `at(0, {})` with an empty per-call vector
throws, because `at(n, uz)` consults only the vector it receives and never
falls back to the bound terms. -/
theorem claim_C7_counterexample :
    Sequence.atWith ⟨[6], collatzRel⟩ 0 [] = .error seqAtErrorMsg := rfl

/-- C7 amended: a call fails with Invalid Configuration exactly when the
terms vector it actually consults is empty.  `at(n, uz)` consults only `uz`
(so an empty per-call vector fails even when terms are bound);
`doUntil(value, uz)` first evaluates its seed `at(0)` against the BOUND
terms, so it fails whenever the bound terms are empty, even with a non-empty
override; when both consulted vectors are non-empty no error is raised (the
fuel-model answer is `.ok`), so a failure raised inside the term evaluation
is the only error and propagates unchanged. -/
theorem claim_C7_amended (rel : List Int → Int) (uz : List Int) (n : Nat)
    (s : Sequence) :
    ((∃ e, atE rel uz n = .error e) ↔ uz = []) ∧
      (s.m_uz = [] → ∀ (value : Int) (uzp : List Int) (fuel : Nat),
        s.doUntilWith value uzp fuel = .error seqAtErrorMsg) ∧
      (s.m_uz ≠ [] → uz ≠ [] → ∀ (value : Int) (fuel : Nat),
        ∃ r, doUntilE s.m_seq s.m_uz uz value fuel = .ok r) := by
  refine ⟨⟨?_, ?_⟩, ?_, ?_⟩
  · intro ⟨e, he⟩
    by_contra hne
    rw [atE, if_neg (fun hz => hne (List.length_eq_zero.mp hz))] at he
    cases he
  · intro huz
    subst huz
    exact ⟨seqAtErrorMsg, rfl⟩
  · intro hmu value uzp fuel
    rw [Sequence.doUntilWith, doUntilE, if_pos (by rw [hmu]; rfl)]
  · intro hmu huz value fuel
    rw [doUntilE, if_neg (fun hz => hmu (List.length_eq_zero.mp hz))]
    exact doUntilLoopE_ok (seqAt s.m_seq uz) uz.length value
      (fun hz => huz (List.length_eq_zero.mp hz)) fuel 0 _ _

/-- Witness for the amended C7: `doUntil(1, [7])` on a sequence with no
bound terms fails despite the override, and with both vectors non-empty the
call does not fail. -/
theorem claim_C7_witness :
    Sequence.doUntilWith ⟨[], collatzRel⟩ 1 [7] 5 = .error seqAtErrorMsg ∧
      ∃ r, doUntilE collatzRel [6] [6] 1 20 = .ok r := by
  constructor
  · exact (claim_C7_amended collatzRel [6] 0 ⟨[], collatzRel⟩).2.1 rfl 1 [7] 5
  · exact (claim_C7_amended collatzRel [6] 0 ⟨[6], collatzRel⟩).2.2
      (by decide) (by decide) 1 20

/-- Strict comparison of the leading components, which forces the `vecLt`
order of the whole keys. -/
def headLt : List Int → List Int → Prop
  | x :: _, y :: _ => x < y
  | _, _ => False

theorem headLt_vecLt {a b : List Int} (h : headLt a b) :
    vecLt a b = true ∧ vecLt b a = false := by
  cases a with
  | nil => cases h
  | cons x as =>
    cases b with
    | nil => cases h
    | cons y bs =>
      have hxy : x < y := h
      constructor
      · show (if x < y then true else if y < x then false else vecLt as bs)
          = true
        rw [if_pos hxy]
      · show (if y < x then true else if x < y then false else vecLt bs as)
          = false
        rw [if_neg (not_lt.mpr hxy.le), if_pos hxy]

theorem headLt_trans {a b c : List Int} (h1 : headLt a b) (h2 : headLt b c) :
    headLt a c := by
  cases a with
  | nil => cases h1
  | cons x as =>
    cases b with
    | nil => cases h1
    | cons y bs =>
      cases c with
      | nil => cases h2
      | cons z cs =>
        show x < z
        exact lt_trans (show x < y from h1) (show y < z from h2)

/-- Inserting a key greater than every key of the map appends it at the
end. -/
theorem mapInsert_append (k : List Int) (v : Except String (Option Result)) :
    ∀ l : ResultMap, (∀ p ∈ l, headLt p.1 k) →
      mapInsert k v l = l ++ [(k, v)] := by
  intro l
  induction l with
  | nil => intro _; rfl
  | cons p rest ih =>
    intro hall
    obtain ⟨kp, vp⟩ := p
    have hvec := headLt_vecLt (hall (kp, vp) (List.mem_cons_self _ _))
    show (if vecLt k kp then _ else if vecLt kp k then _ else _) = _
    rw [if_neg (by rw [hvec.2]; exact Bool.false_ne_true), if_pos hvec.1,
      ih (fun q hq => hall q (List.mem_cons_of_mem _ hq))]
    rfl

/-- Adding a positive step to every component moves a non-empty key strictly
upward in key order. -/
theorem headLt_step (uz : List Int) (step : Nat) (hstep : 1 ≤ step)
    (hk : uz ≠ []) : headLt uz (uz.map (fun x => x + (step : Int))) := by
  cases uz with
  | nil => exact absurd rfl hk
  | cons x xs =>
    show x < x + (step : Int)
    have hcast : (1 : Int) ≤ (step : Int) := by exact_mod_cast hstep
    omega

theorem range_map_shift (n : Nat)
    (G : Nat → (List Int × Except String (Option Result))) :
    (List.range (n + 1)).map G = G 0 :: (List.range n).map (fun i => G (i + 1)) := by
  rw [List.range_succ_eq_map, List.map_cons, List.map_map]
  rfl

/-- Full characterisation of the `loadNUntil` insertion loop for a positive
step: keys are inserted in strictly increasing order, so the map lists, in
order, the `n` uniformly incremented vectors, each carrying the result of
`doUntil(value, key)` run on the ORIGINAL instance (whose bound terms keep
seeding every invocation). -/
theorem loadNLoop_eq (s : Sequence) (value : Int) (step fuel : Nat)
    (hstep : 1 ≤ step) :
    ∀ (n : Nat) (uz : List Int) (acc : ResultMap), uz ≠ [] →
      (∀ p ∈ acc, headLt p.1 uz) →
      loadNLoop s value step fuel n uz acc =
        acc ++ (List.range n).map (fun (i : Nat) =>
          (uz.map (fun x => x + (i : Int) * (step : Int)),
           doUntilE s.m_seq s.m_uz
             (uz.map (fun x => x + (i : Int) * (step : Int))) value fuel)) := by
  intro n
  induction n with
  | zero =>
    intro uz acc _ _
    rw [loadNLoop]
    simp
  | succ n ih =>
    intro uz acc hk hacc
    have hstep1 : headLt uz (uz.map (fun x => x + (step : Int))) :=
      headLt_step uz step hstep hk
    have hkey : ∀ i : Nat,
        (uz.map (fun x => x + (step : Int))).map
            (fun x => x + (i : Int) * (step : Int)) =
          uz.map (fun x => x + ((i + 1 : Nat) : Int) * (step : Int)) := by
      intro i
      rw [List.map_map]
      apply List.map_congr_left
      intro x _
      simp only [Function.comp_apply]
      push_cast
      ring
    rw [loadNLoop,
      mapInsert_append uz (doUntilE s.m_seq s.m_uz uz value fuel) acc hacc,
      ih (uz.map (fun x => x + (step : Int)))
        (acc ++ [(uz, doUntilE s.m_seq s.m_uz uz value fuel)])
        (fun hcon => hk (List.map_eq_nil_iff.mp hcon))
        (fun p hp => by
          rcases List.mem_append.mp hp with hmem | hmem
          · exact headLt_trans (hacc p hmem) hstep1
          · rw [List.mem_singleton.mp hmem]
            exact hstep1),
      range_map_shift n (fun (i : Nat) =>
        (uz.map (fun x => x + (i : Int) * (step : Int)),
         doUntilE s.m_seq s.m_uz
           (uz.map (fun x => x + (i : Int) * (step : Int))) value fuel)),
      List.append_assoc, List.singleton_append]
    congr 1
    congr 1
    · rw [show uz.map (fun x => x + ((0 : Nat) : Int) * (step : Int)) = uz
        from by simp]
    · apply List.map_congr_left
      intro i _
      rw [hkey i]

/-- C1 amended: for a positive step and bound base terms, `loadNUntil`
returns exactly `n` entries, keyed by the base vector and its `n - 1`
successive uniform increments in increasing order, and the entry of key `K`
holds the result of `doUntil(value, K)` invoked on the original instance —
whose seed term still comes from the base bound terms — not of `doUntil` on
a sequence rebound to `K`. -/
theorem claim_C1_amended (s : Sequence) (n : Nat) (value : Int)
    (step fuel : Nat) (hstep : 1 ≤ step) (hk : s.m_uz ≠ []) :
    s.loadNUntil n value step fuel =
      (List.range n).map (fun (i : Nat) =>
        (s.m_uz.map (fun x => x + (i : Int) * (step : Int)),
         doUntilE s.m_seq s.m_uz
           (s.m_uz.map (fun x => x + (i : Int) * (step : Int))) value fuel)) := by
  rw [Sequence.loadNUntil,
    loadNLoop_eq s value step fuel hstep n s.m_uz [] hk
      (fun p hp => absurd hp (List.not_mem_nil p)),
    List.nil_append]

/-- Witness for the amended C1: base `[6]`, two tasks, step 1. -/
theorem claim_C1_witness :
    Sequence.loadNUntil ⟨[6], collatzRel⟩ 2 1 1 20 =
      (List.range 2).map (fun (i : Nat) =>
        (([6] : List Int).map (fun x => x + (i : Int) * ((1 : Nat) : Int)),
         doUntilE collatzRel [6]
           (([6] : List Int).map (fun x => x + (i : Int) * ((1 : Nat) : Int)))
           1 20)) :=
  claim_C1_amended ⟨[6], collatzRel⟩ 2 1 1 20 (by decide) (by decide)

/-- C1 as stated is contradicted by the code on two counts.  With base
`[15]`, Collatz relation, `loadNUntil(2, 1, 1)`: the entry of key `[16]` is
`{cycleLen 4, maxTerm 15}` (its seed term is `at(0)` of the BASE, 15),
whereas `doUntil(1)` on a sequence whose bound terms are `[16]` returns
`{cycleLen 4, maxTerm 16}`.  And with `step = 0`, the generated keys
coincide, so `loadNUntil(2, 1, 0)` has 1 entry, not 2. -/
theorem claim_C1_counterexample :
    Sequence.loadNUntil ⟨[15], collatzRel⟩ 2 1 1 25 =
        [([15], .ok (some ⟨17, 160⟩)), ([16], .ok (some ⟨4, 15⟩))] ∧
      Sequence.doUntil ⟨[16], collatzRel⟩ 1 25 = .ok (some ⟨4, 16⟩) ∧
      (Sequence.loadNUntil ⟨[6], collatzRel⟩ 2 1 0 20).length = 1 := by
  have e1 : doUntilE collatzRel [15] [15] 1 25 = .ok (some ⟨17, 160⟩) := by
    rw [doUntilE_eval]; rfl
  have e2 : doUntilE collatzRel [15] [16] 1 25 = .ok (some ⟨4, 15⟩) := by
    rw [doUntilE_eval]; rfl
  have e3 : doUntilE collatzRel [16] [16] 1 25 = .ok (some ⟨4, 16⟩) := by
    rw [doUntilE_eval]; rfl
  refine ⟨?_, e3, ?_⟩
  · rw [show Sequence.loadNUntil ⟨[15], collatzRel⟩ 2 1 1 25 =
      mapInsert [16] (doUntilE collatzRel [15] [16] 1 25)
        (mapInsert [15] (doUntilE collatzRel [15] [15] 1 25) []) from by
        norm_num [Sequence.loadNUntil, loadNLoop]]
    rw [e1, e2]
    rfl
  · rw [show Sequence.loadNUntil ⟨[6], collatzRel⟩ 2 1 0 20 =
      mapInsert [6] (doUntilE collatzRel [6] [6] 1 20)
        (mapInsert [6] (doUntilE collatzRel [6] [6] 1 20) []) from by
        norm_num [Sequence.loadNUntil, loadNLoop]]
    rfl

end Syracuse
